import Mathlib

/- Shallow embedding of src/parser.py: class EarleyItem and class EarleyParser.

   Python dicts are modelled as ordered association lists (Python 3.7+ dicts
   preserve insertion order, which the program relies on for the start symbol
   and for production order).  The chart is a list of item lists with
   positions 0..n, as in Python; src/parser.py never reads or writes outside
   that range (the scan step is guarded by i < n).

   The Python `while j < len(chart[i])` worklist loop and the live `for item
   in chart[start_pos]` loop inside `complete` iterate lists that can grow
   while being iterated; they are embedded as index loops with an explicit
   fuel argument.  The fuel passed at each call site is proved sufficient
   (theorems below), so the fuel-exhaustion branch is never taken on any
   input; the `ex` parameter adds slack fuel everywhere and is used to state
   termination (adding fuel changes nothing).

   EarleyItem.end_pos is carried by the Python object but is used only by
   __str__ and is not part of __eq__/__hash__ nor of any control flow, so it
   is omitted here. -/

structure Token where
  kind : String
  lexeme : String
deriving DecidableEq

/-- A production `(left_side, right_side)`, as in EarleyItem.rule. -/
abbrev Rule := String × List String

mutual

/-- class EarleyItem: rule, dot_pos, start_pos and the back-pointer list
`children` whose entries are scanned tokens or completed items. -/
inductive Item : Type where
  | mk (rule : Rule) (dot : Nat) (start : Nat) (children : Kids) : Item

/-- The back-pointer list of an item: a plain left-to-right list whose
entries are tokens or items; Kids.toList recovers it as a Lean list. -/
inductive Kids : Type where
  | nil : Kids
  | consTok (t : Token) (rest : Kids) : Kids
  | consSub (x : Item) (rest : Kids) : Kids

end

def Item.rule : Item → Rule
  | .mk r _ _ _ => r

def Item.dot : Item → Nat
  | .mk _ d _ _ => d

def Item.start : Item → Nat
  | .mk _ _ s _ => s

def Item.children : Item → Kids
  | .mk _ _ _ cs => cs

/-- The children list as a Lean list: a token entry on the left, an item
entry on the right. -/
def Kids.toList : Kids → List (Token ⊕ Item)
  | .nil => []
  | .consTok t r => Sum.inl t :: r.toList
  | .consSub x r => Sum.inr x :: r.toList

/-- `children + [token]`. -/
def Kids.snocTok : Kids → Token → Kids
  | .nil, t => .consTok t .nil
  | .consTok a r, t => .consTok a (r.snocTok t)
  | .consSub a r, t => .consSub a (r.snocTok t)

/-- `children + [completed_item]`. -/
def Kids.snocSub : Kids → Item → Kids
  | .nil, x => .consSub x .nil
  | .consTok a r, x => .consTok a (r.snocSub x)
  | .consSub a r, x => .consSub a (r.snocSub x)

/-- EarleyItem.is_complete: `self.dot_pos >= len(self.rule[1])`. -/
def Item.isComplete (x : Item) : Bool :=
  x.rule.2.length ≤ x.dot

/-- EarleyItem.next_symbol: None when complete, else `self.rule[1][self.dot_pos]`. -/
def Item.nextSymbol (x : Item) : Option String :=
  if x.isComplete then none else x.rule.2.get? x.dot

/-- The identity used by EarleyItem.__eq__ / __hash__: (rule, dot_pos,
start_pos); the children list is not part of the identity. -/
def idOf (x : Item) : Rule × Nat × Nat := (x.rule, x.dot, x.start)

/-- The item built by EarleyParser.scan: dot advanced, same origin,
children extended with the scanned token. -/
def advTok (x : Item) (t : Token) : Item :=
  .mk x.rule (x.dot + 1) x.start (x.children.snocTok t)

/-- The item built by EarleyParser.complete: `y` advanced past the completed
item `x`, children extended with a reference to `x`. -/
def advSub (y x : Item) : Item :=
  .mk y.rule (y.dot + 1) y.start (y.children.snocSub x)

/-- The grammar dict `self.grammar`: an ordered mapping from a left-hand
side to the ordered list of its right-hand sides. -/
abbrev Grammar := List (String × List (List String))

/-- `self.grammar.get(a, [])`. -/
def lookupG (g : Grammar) (a : String) : List (List String) :=
  match g.find? (fun p => p.1 == a) with
  | some p => p.2
  | none => []

/-- `sym in self.non_terminals` where non_terminals = set(grammar.keys()). -/
def isNonTerminal (g : Grammar) (a : String) : Bool :=
  g.any (fun p => p.1 == a)

/-- `self.start_symbol`: None when the grammar is empty, else the first key
(analyze_grammar). -/
def startSym (g : Grammar) : Option String :=
  g.head?.map (fun p => p.1)

/-- The chart `[[] for _ in range(n + 1)]`: a list of item lists, one per
position 0..n, exactly as in Python. -/
abbrev Chart := List (List Item)

/-- chart[k] as an rvalue; positions outside range (never read by the
embedded code on its own charts) give []. -/
def chartGet (c : Chart) (k : Nat) : List Item :=
  c.getD k []

/-- chart[k] = l; positions outside range (never written: every write is at
the current position i <= n or at i + 1 with the scan guard i < n) leave
the chart unchanged. -/
def chartSet (c : Chart) (k : Nat) (l : List Item) : Chart :=
  c.set k l

/-- `if new_item not in chart[pos]: chart[pos].append(new_item)` — membership
is EarleyItem.__eq__, i.e. identity. -/
def addIfNew (l : List Item) (x : Item) : List Item :=
  if idOf x ∈ l.map idOf then l else l ++ [x]

/-- One checked insertion performed inside EarleyParser.complete. -/
def completeInsert (chart : Chart) (i : Nat) (y x : Item) : Chart :=
  chartSet chart i (addIfNew (chartGet chart i) (advSub y x))

/-- All item identities that can ever arise for grammar g on n tokens:
a production of g, a dot position within it, an origin in 0..n. -/
def allIds (g : Grammar) (n : Nat) : List (Rule × Nat × Nat) :=
  g.flatMap (fun p => p.2.flatMap (fun rhs =>
    (List.range (rhs.length + 1)).flatMap (fun d =>
      (List.range (n + 1)).map (fun s => ((p.1, rhs), d, s)))))

/-- Fuel given to an index loop over a list that can grow by checked
insertions only: current length + number of possible identities + 1,
plus the slack `ex`. -/
def fuelFor (g : Grammar) (n : Nat) (l : List Item) (ex : Nat) : Nat :=
  l.length + (allIds g n).length + 1 + ex

/-- EarleyParser.complete: `for item in chart[completed_item.start_pos]`,
advancing every not-complete item whose next symbol is the completed
item's left-hand side.  The Python for-loop iterates the list live (it
sees items appended during the loop when start_pos = i), hence the index
loop. -/
def completeLoop (x : Item) (i : Nat) : Nat → Nat → Chart → Chart
  | 0, _, chart => chart
  | fuel + 1, k, chart =>
    match (chartGet chart x.start).get? k with
    | none => chart
    | some y =>
      completeLoop x i fuel (k + 1)
        (if y.isComplete = false ∧ y.nextSymbol = some x.rule.1
         then completeInsert chart i y x else chart)

/-- EarleyParser.predict: one checked insertion per production of b. -/
def predictStep (g : Grammar) (chart : Chart) (b : String) (i : Nat) : Chart :=
  chartSet chart i
    ((lookupG g b).foldl (fun acc rhs => addIfNew acc (Item.mk (b, rhs) 0 i .nil)) (chartGet chart i))

/-- EarleyParser.scan: unconditional `chart[pos + 1].append(new_item)` —
note: no membership check, unlike predict and complete. -/
def scanStep (chart : Chart) (x : Item) (i : Nat) (t : Token) : Chart :=
  chartSet chart (i + 1) (chartGet chart (i + 1) ++ [advTok x t])

/-- The body of the main worklist loop of EarleyParser.parse for one item:
complete if the item is complete, else predict on a non-terminal next
symbol, else scan when the next symbol matches the current token kind. -/
def processItem (g : Grammar) (toks : List Token) (ex : Nat) (chart : Chart)
    (i : Nat) (x : Item) : Chart :=
  if x.isComplete then
    completeLoop x i (fuelFor g toks.length (chartGet chart x.start) ex) 0 chart
  else
    match x.nextSymbol with
    | none => chart
    | some sym =>
      if isNonTerminal g sym then predictStep g chart sym i
      else
        match toks.get? i with
        | some t => if sym = t.kind then scanStep chart x i t else chart
        | none => chart

/-- The inner `while j < len(chart[i])` loop of EarleyParser.parse; the
list chart[i] can grow while being scanned. -/
def passLoop (g : Grammar) (toks : List Token) (ex : Nat) :
    Nat → Nat → Nat → Chart → Chart
  | 0, _, _, chart => chart
  | fuel + 1, i, j, chart =>
    match (chartGet chart i).get? j with
    | none => chart
    | some x => passLoop g toks ex fuel i (j + 1) (processItem g toks ex chart i x)

/-- The outer `for i in range(len(token_types) + 1)` loop: `c` counts the
passes still to run, `i` is the current position, so a full run is
`runFrom g toks ex (n + 1) 0`. -/
def runFrom (g : Grammar) (toks : List Token) (ex : Nat) : Nat → Nat → Chart → Chart
  | 0, _, chart => chart
  | c + 1, i, chart =>
    runFrom g toks ex c (i + 1)
      (passLoop g toks ex (fuelFor g toks.length (chartGet chart i) ex) i 0 chart)

/-- The initial chart on n tokens: position 0 holds one item
(start, production, 0, 0) per production of the start symbol, appended in
production order (no membership check); positions 1..n are empty. -/
def initChart (g : Grammar) (s : String) (n : Nat) : Chart :=
  ((lookupG g s).map (fun rhs => Item.mk (s, rhs) 0 0 .nil)) :: List.replicate n []

/-- Chart construction of EarleyParser.parse (after tokenization and the
start-symbol check): initial prediction followed by the main loop. -/
def recognizeC (g : Grammar) (toks : List Token) (ex : Nat) (s : String) : Chart :=
  runFrom g toks ex (toks.length + 1) 0 (initChart g s toks.length)

/-- The acceptance test of EarleyParser.parse: lhs = start symbol, complete,
origin 0. -/
def isAccepting (s : String) (x : Item) : Bool :=
  x.rule.1 == s && x.isComplete && x.start == 0

/-- Derivation tree node: label, terminal flag, ordered children — the data
build_tree stores in the DiGraph (node ids are just identity). -/
inductive PTree where
  | node (label : String) (isTerm : Bool) (children : List PTree)

mutual

/-- add_node_to_graph on an item: a non-terminal node labelled by the
item's lhs, with one child per back-pointer entry. -/
def treeOfItem : Item → PTree
  | .mk r _ _ cs => PTree.node r.1 false (treeOfKids cs)

/-- add_node_to_graph mapped over a back-pointer list: a token becomes a
terminal leaf labelled by its lexeme; an item is converted recursively. -/
def treeOfKids : Kids → List PTree
  | .nil => []
  | .consTok t rest => PTree.node t.lexeme true [] :: treeOfKids rest
  | .consSub x rest => treeOfItem x :: treeOfKids rest

end

/-- EarleyParser.build_tree: find the first accepting item of chart[n] (in
insertion order) and materialize it; None when there is none. -/
def buildTree (s : String) (chart : Chart) (n : Nat) : Option PTree :=
  ((chartGet chart n).find? (isAccepting s)).map treeOfItem

/-- EarleyParser.parse after tokenization: `if not self.start_symbol:
return False, None` — a falsy start symbol, i.e. None (empty grammar) or
the empty string (a production line whose left-hand side is empty), means
(False, None); otherwise run recognition and scan chart[n] for an
accepting item. -/
def parseTokens (g : Grammar) (toks : List Token) : Bool × Option PTree :=
  match startSym g with
  | none => (false, none)
  | some s =>
    if s = "" then (false, none)
    else
      let c := recognizeC g toks 0 s
      if (chartGet c toks.length).any (isAccepting s) then (true, buildTree s c toks.length)
      else (false, none)

/-- EarleyParser.tokenize on the character list of the input string.  The
Python while-loop advances `i` by at least one character per iteration, so
running it with `length + 1` iterations of fuel (as `tokenize` below does)
is exact: the fuel-0 branch is reached only on the empty remainder. -/
def tokenizeChars : Nat → List Char → List Token
  | 0, _ => []
  | _ + 1, [] => []
  | fuel + 1, c :: rest =>
    if c.isWhitespace then tokenizeChars fuel rest
    else if c.isDigit then
      Token.mk "num" (String.mk (c :: rest.takeWhile Char.isDigit)) ::
        tokenizeChars fuel (rest.dropWhile Char.isDigit)
    else if c = '+' then Token.mk "op_suma" (String.mk [c]) :: tokenizeChars fuel rest
    else if c = '*' then Token.mk "op_mul" (String.mk [c]) :: tokenizeChars fuel rest
    else if c = '(' then Token.mk "pari" (String.mk [c]) :: tokenizeChars fuel rest
    else if c = ')' then Token.mk "pard" (String.mk [c]) :: tokenizeChars fuel rest
    else if c = '-' then Token.mk "op_suma" (String.mk [c]) :: tokenizeChars fuel rest
    else if c = '/' then Token.mk "op_mul" (String.mk [c]) :: tokenizeChars fuel rest
    else if c.isAlpha then
      Token.mk "id" (String.mk (c :: rest.takeWhile (fun ch => ch.isAlphanum || ch == '_'))) ::
        tokenizeChars fuel (rest.dropWhile (fun ch => ch.isAlphanum || ch == '_'))
    else tokenizeChars fuel rest

/-- EarleyParser.tokenize. -/
def tokenize (s : String) : List Token :=
  tokenizeChars (s.data.length + 1) s.data

/-- EarleyParser.parse on an input string. -/
def parse (g : Grammar) (s : String) : Bool × Option PTree :=
  parseTokens g (tokenize s)

/-- Python `str.strip()` on a character list (leading and trailing
whitespace removed). -/
def trimChars (l : List Char) : List Char :=
  ((l.dropWhile Char.isWhitespace).reverse.dropWhile Char.isWhitespace).reverse

/-- Split a character list on every whitespace character (keeping empty
pieces between adjacent separators). -/
def splitOnWsChars : List Char → List (List Char)
  | [] => [[]]
  | c :: rest =>
    if c.isWhitespace then [] :: splitOnWsChars rest
    else
      match splitOnWsChars rest with
      | w :: ws => (c :: w) :: ws
      | [] => [[c]]

/-- Python `str.split()` with no separator: maximal nonempty runs of
non-whitespace characters. -/
def splitWs (l : List Char) : List String :=
  ((splitOnWsChars l).filter (fun w => w ≠ [])).map String.mk

/-- Python `line.split(c, 1)` when c occurs: the part before the first
occurrence of the character c and the part after it; none when c does not
occur (the Python code tests membership first). -/
def splitAtFirstChar (c : Char) : List Char → Option (List Char × List Char)
  | [] => none
  | a :: rest =>
    if a = c then some ([], rest)
    else
      match splitAtFirstChar c rest with
      | some (pre, post) => some (a :: pre, post)
      | none => none

/-- Python `line.split("->", 1)` when "->" occurs: the parts before and
after the first occurrence of the two-character separator. -/
def splitAtFirstDashGt : List Char → Option (List Char × List Char)
  | [] => none
  | [_] => none
  | a :: b :: rest =>
    if a = '-' ∧ b = '>' then some ([], rest)
    else
      match splitAtFirstDashGt (b :: rest) with
      | some (pre, post) => some (a :: pre, post)
      | none => none

/-- `grammar[left].append(right)` on a defaultdict(list): append to the
existing key's list, else add the key at the end. -/
def addProduction (g : Grammar) (lhs : String) (rhs : List String) : Grammar :=
  if g.any (fun p => p.1 == lhs) then
    g.map (fun p => if p.1 == lhs then (p.1, p.2 ++ [rhs]) else p)
  else g ++ [(lhs, [rhs])]

/-- One iteration of the line loop of EarleyParser.load_grammar: skip blank
and comment lines, else split on the first `→` (or else the first `->`)
into lhs and whitespace-separated rhs; a line with neither separator is
ignored.  No validation of any kind is performed. -/
def processLine (g : Grammar) (line0 : String) : Grammar :=
  let line := trimChars line0.data
  if line = [] then g
  else if line.head? = some '#' then g
  else
    match splitAtFirstChar '→' line with
    | some (pre, post) =>
        addProduction g (String.mk (trimChars pre)) (splitWs (trimChars post))
    | none =>
      match splitAtFirstDashGt line with
      | some (pre, post) =>
          addProduction g (String.mk (trimChars pre)) (splitWs (trimChars post))
      | none => g

/-- EarleyParser.load_grammar: `none` stands for a missing grammar file
(FileNotFoundError), on which the Python code prints a message and returns
the empty dict; otherwise the file's lines are folded left to right. -/
def loadGrammar : Option (List String) → Grammar
  | none => []
  | some lines => lines.foldl processLine []

/-- The identity of an item after its dot is advanced by one. -/
def advId (p : Rule × Nat × Nat) : Rule × Nat × Nat := (p.1, p.2.1 + 1, p.2.2)

/-- `l'` is `l` with zero or more items appended (lists only grow: the
program never removes or replaces chart entries). -/
def growsTo (l l' : List Item) : Prop := ∃ t, l' = l ++ t

/-- The number of distinct identities among the items of a list. -/
def cardIds (l : List Item) : Nat := (l.map idOf).toFinset.card

/-- `r` is a production of `g`, as the parser looks productions up. -/
def ruleInG (g : Grammar) (r : Rule) : Prop := r.2 ∈ lookupG g r.1

/-- `P` holds of every item of the chart, at the position holding it. -/
def ChartWf (P : Item → Nat → Prop) (chart : Chart) : Prop :=
  ∀ k x, x ∈ chartGet chart k → P x k

/-- The obligations making a per-item invariant `P` stable under the three
Earley operations as src/parser.py performs them. -/
structure StepInv (g : Grammar) (toks : List Token) (P : Item → Nat → Prop) : Prop where
  predictH : ∀ b rhs i, rhs ∈ lookupG g b → isNonTerminal g b = true →
    i ≤ toks.length → P (Item.mk (b, rhs) 0 i .nil) i
  scanH : ∀ x t i, P x i → x.isComplete = false → x.nextSymbol = some t.kind →
    isNonTerminal g t.kind = false → toks.get? i = some t → P (advTok x t) (i + 1)
  completeH : ∀ x y i, P x i → x.isComplete = true → P y x.start →
    y.isComplete = false → y.nextSymbol = some x.rule.1 → P (advSub y x) i

/-- How one back-pointer entry corresponds to the grammar symbol it
matched: a scanned terminal gives a token of that kind, a matched
non-terminal gives a completed item with that left-hand side. -/
def childMatches (g : Grammar) : String → Token ⊕ Item → Prop
  | sym, Sum.inl t => isNonTerminal g sym = false ∧ t.kind = sym
  | sym, Sum.inr y => y.rule.1 = sym ∧ y.isComplete = true ∧ ruleInG g y.rule

/-- The back-pointer list `cs` derives exactly the tokens of positions
`s..e`: a token entry consumes the token at its position, an item entry
consumes the span its own children consume. -/
inductive SpanK (toks : List Token) : Kids → Nat → Nat → Prop where
  | nil (s : Nat) : SpanK toks .nil s s
  | tok (t : Token) (cs : Kids) (s e : Nat) : toks.get? s = some t →
      SpanK toks cs (s + 1) e → SpanK toks (.consTok t cs) s e
  | sub (y : Item) (cs : Kids) (s m e : Nat) : y.start = s →
      SpanK toks y.children s m → SpanK toks cs m e → SpanK toks (.consSub y cs) s e

/-- The full invariant of every chart item at its position: its rule is a
grammar production, the dot is within the rule, origins are ordered, each
back-pointer entry matches the corresponding matched symbol, and the
back-pointers derive the tokens between origin and position. -/
def WfItem (g : Grammar) (toks : List Token) (x : Item) (k : Nat) : Prop :=
  ruleInG g x.rule ∧ x.dot ≤ x.rule.2.length ∧ x.start ≤ k ∧ k ≤ toks.length ∧
  List.Forall₂ (childMatches g) (x.rule.2.take x.dot) x.children.toList ∧
  SpanK toks x.children x.start k

mutual

/-- The yield of a tree: the pre-order (left-to-right) sequence of the
labels of its terminal nodes — for trees built by build_tree, the lexemes
of its terminal leaves. -/
def treeYield : PTree → List String
  | .node lbl tf cs => (if tf then [lbl] else []) ++ treeYieldL cs

/-- The concatenated yields of a forest, left to right. -/
def treeYieldL : List PTree → List String
  | [] => []
  | t :: ts => treeYield t ++ treeYieldL ts

end

/-- No chart position holds two identity-equal entries. -/
def NodupChart (chart : Chart) : Prop :=
  ∀ k, ((chartGet chart k).map idOf).Nodup

/-- All chart positions from `b` on are still empty. -/
def EmptyFrom (chart : Chart) (b : Nat) : Prop :=
  ∀ k, b ≤ k → chartGet chart k = []

/-- During pass i, every entry of chart[i+1] is the scan-advance of an
entry of chart[i] at an index below j (the worklist cursor): chart[i+1]
holds exactly the items scanned so far. -/
def ScanImage (chart : Chart) (i j : Nat) : Prop :=
  ∀ y ∈ chartGet chart (i + 1), ∃ m, m < j ∧
    ∃ z, (chartGet chart i).get? m = some z ∧ idOf y = advId (idOf z)

/-- Two snapshots of one chart list taken before and after checked
insertions: the length grows by exactly the number of new identities. -/
def phiEq (l l' : List Item) : Prop :=
  l'.length + cardIds l = l.length + cardIds l'

@[simp] theorem Item.rule_mk (r : Rule) (d s : Nat) (cs : Kids) : (Item.mk r d s cs).rule = r := rfl

@[simp] theorem Item.dot_mk (r : Rule) (d s : Nat) (cs : Kids) : (Item.mk r d s cs).dot = d := rfl

@[simp] theorem Item.start_mk (r : Rule) (d s : Nat) (cs : Kids) : (Item.mk r d s cs).start = s := rfl

@[simp] theorem Item.children_mk (r : Rule) (d s : Nat) (cs : Kids) : (Item.mk r d s cs).children = cs := rfl

@[simp] theorem Kids.toList_snocTok : ∀ (cs : Kids) (t : Token),
    (cs.snocTok t).toList = cs.toList ++ [Sum.inl t]
  | .nil, _ => rfl
  | .consTok a r, t => by simp [Kids.snocTok, Kids.toList, Kids.toList_snocTok r t]
  | .consSub a r, t => by simp [Kids.snocTok, Kids.toList, Kids.toList_snocTok r t]

@[simp] theorem Kids.toList_snocSub : ∀ (cs : Kids) (x : Item),
    (cs.snocSub x).toList = cs.toList ++ [Sum.inr x]
  | .nil, _ => rfl
  | .consTok a r, x => by simp [Kids.snocSub, Kids.toList, Kids.toList_snocSub r x]
  | .consSub a r, x => by simp [Kids.snocSub, Kids.toList, Kids.toList_snocSub r x]

@[simp] theorem idOf_advTok (x : Item) (t : Token) :
    idOf (advTok x t) = (x.rule, x.dot + 1, x.start) := rfl

@[simp] theorem idOf_advSub (y x : Item) :
    idOf (advSub y x) = (y.rule, y.dot + 1, y.start) := rfl

theorem advId_idOf (z : Item) : advId (idOf z) = (z.rule, z.dot + 1, z.start) := rfl

theorem advId_inj {p q : Rule × Nat × Nat} (h : advId p = advId q) : p = q := by
  obtain ⟨r1, d1, s1⟩ := p
  obtain ⟨r2, d2, s2⟩ := q
  simp only [advId, Prod.mk.injEq] at h
  simp_all

theorem addIfNew_of_mem {l : List Item} {x : Item} (h : idOf x ∈ l.map idOf) :
    addIfNew l x = l := by
  simp [addIfNew, h]

theorem addIfNew_of_not_mem {l : List Item} {x : Item} (h : idOf x ∉ l.map idOf) :
    addIfNew l x = l ++ [x] := by
  simp [addIfNew, h]

theorem growsTo_refl (l : List Item) : growsTo l l := ⟨[], by simp⟩

theorem growsTo_trans {a b c : List Item} (h1 : growsTo a b) (h2 : growsTo b c) :
    growsTo a c := by
  obtain ⟨t1, rfl⟩ := h1
  obtain ⟨t2, rfl⟩ := h2
  exact ⟨t1 ++ t2, by simp⟩

theorem growsTo_addIfNew (l : List Item) (x : Item) : growsTo l (addIfNew l x) := by
  by_cases h : idOf x ∈ l.map idOf
  · rw [addIfNew_of_mem h]; exact growsTo_refl l
  · exact ⟨[x], addIfNew_of_not_mem h⟩

theorem growsTo_get? {l l' : List Item} {m : Nat} (h : growsTo l l') (hm : m < l.length) :
    l'.get? m = l.get? m := by
  obtain ⟨t, rfl⟩ := h
  exact List.get?_append hm

theorem growsTo_mem {l l' : List Item} {z : Item} (h : growsTo l l') (hz : z ∈ l) : z ∈ l' := by
  obtain ⟨t, rfl⟩ := h
  exact List.mem_append_left t hz

theorem growsTo_length {l l' : List Item} (h : growsTo l l') : l.length ≤ l'.length := by
  obtain ⟨t, rfl⟩ := h
  simp

theorem mem_addIfNew {l : List Item} {x z : Item} (h : z ∈ addIfNew l x) : z ∈ l ∨ z = x := by
  by_cases hm : idOf x ∈ l.map idOf
  · rw [addIfNew_of_mem hm] at h; exact Or.inl h
  · rw [addIfNew_of_not_mem hm] at h
    rcases List.mem_append.mp h with h' | h'
    · exact Or.inl h'
    · exact Or.inr (List.mem_singleton.mp h')

theorem ids_subset_addIfNew (l : List Item) (x : Item) :
    l.map idOf ⊆ (addIfNew l x).map idOf := by
  obtain ⟨t, ht⟩ := growsTo_addIfNew l x
  rw [ht]
  intro a ha
  simp only [List.map_append, List.mem_append]
  exact Or.inl ha

theorem addIfNew_len_card (l : List Item) (x : Item) :
    (addIfNew l x).length + cardIds l = l.length + cardIds (addIfNew l x) := by
  by_cases hm : idOf x ∈ l.map idOf
  · rw [addIfNew_of_mem hm]
  · rw [addIfNew_of_not_mem hm]
    have hcard : cardIds (l ++ [x]) = cardIds l + 1 := by
      unfold cardIds
      rw [List.map_append, List.toFinset_append, Finset.union_comm]
      simp only [List.map_cons, List.map_nil, List.toFinset_cons, List.toFinset_nil,
        insert_emptyc_eq]
      rw [show ({idOf x} : Finset (Rule × Nat × Nat)) ∪ (List.map idOf l).toFinset
            = insert (idOf x) (List.map idOf l).toFinset from rfl]
      rw [Finset.card_insert_of_not_mem (fun hc => hm (List.mem_toFinset.mp hc))]
    rw [hcard]
    simp [Nat.add_comm, Nat.add_assoc, Nat.add_left_comm]

theorem nodup_addIfNew {l : List Item} (x : Item) (h : (l.map idOf).Nodup) :
    ((addIfNew l x).map idOf).Nodup := by
  by_cases hm : idOf x ∈ l.map idOf
  · rw [addIfNew_of_mem hm]; exact h
  · rw [addIfNew_of_not_mem hm, List.map_append]
    simp only [List.map_cons, List.map_nil]
    exact List.Nodup.append h (List.nodup_singleton _) (by simpa using hm)

theorem chartGet_of_le_length {c : Chart} {k : Nat} (h : c.length ≤ k) : chartGet c k = [] := by
  unfold chartGet
  rw [List.getD_eq_get?, List.get?_eq_none.mpr h]
  rfl

theorem mem_chartGet_lt {c : Chart} {k : Nat} {x : Item} (h : x ∈ chartGet c k) :
    k < c.length := by
  by_contra hk
  rw [chartGet_of_le_length (Nat.le_of_not_lt hk)] at h
  exact absurd h (List.not_mem_nil x)

@[simp] theorem length_chartSet (c : Chart) (k : Nat) (l : List Item) :
    (chartSet c k l).length = c.length := by
  simp [chartSet]

theorem chartGet_set_self {c : Chart} {k : Nat} (l : List Item) (h : k < c.length) :
    chartGet (chartSet c k l) k = l := by
  unfold chartGet chartSet
  rw [List.getD_eq_get?, List.get?_set_eq_of_lt _ h]
  rfl

theorem chartGet_set_ne {c : Chart} {k m : Nat} (l : List Item) (h : m ≠ k) :
    chartGet (chartSet c k l) m = chartGet c m := by
  unfold chartGet chartSet
  rw [List.getD_eq_get?, List.getD_eq_get?, List.get?_set_ne _ _ (fun hh => h hh.symm)]

theorem chartSet_chartGet (c : Chart) (k : Nat) : chartSet c k (chartGet c k) = c := by
  unfold chartSet chartGet
  induction c generalizing k with
  | nil => simp
  | cons a c ih =>
    cases k with
    | zero => simp [List.getD]
    | succ k => simpa [List.getD] using ih k

theorem chartSet_of_le_length {c : Chart} {k : Nat} (l : List Item) (h : c.length ≤ k) :
    chartSet c k l = c := by
  unfold chartSet
  induction c generalizing k with
  | nil => simp
  | cons a c ih =>
    cases k with
    | zero => simp at h
    | succ k => simpa using ih (Nat.le_of_succ_le_succ h)

theorem chartGet_chartSet_cases (c : Chart) (k m : Nat) (l : List Item) :
    chartGet (chartSet c k l) m = chartGet c m ∨
      (m = k ∧ k < c.length ∧ chartGet (chartSet c k l) m = l) := by
  by_cases hm : m = k
  · subst hm
    by_cases hk : m < c.length
    · exact Or.inr ⟨rfl, hk, chartGet_set_self l hk⟩
    · rw [chartSet_of_le_length l (Nat.le_of_not_lt hk)]
      exact Or.inl rfl
  · exact Or.inl (chartGet_set_ne l hm)

theorem getD_replicate_nil : ∀ (n k : Nat), (List.replicate n ([] : List Item)).getD k [] = []
  | 0, _ => rfl
  | _ + 1, 0 => rfl
  | n + 1, k + 1 => getD_replicate_nil n k

@[simp] theorem initChart_length (g : Grammar) (s : String) (n : Nat) :
    (initChart g s n).length = n + 1 := by
  simp [initChart]

theorem chartGet_initChart_zero (g : Grammar) (s : String) (n : Nat) :
    chartGet (initChart g s n) 0 = (lookupG g s).map (fun rhs => Item.mk (s, rhs) 0 0 .nil) := rfl

theorem chartGet_initChart_succ (g : Grammar) (s : String) (n k : Nat) :
    chartGet (initChart g s n) (k + 1) = [] :=
  getD_replicate_nil n k

theorem completeLoop_length (x : Item) (i : Nat) : ∀ (fuel k : Nat) (chart : Chart),
    (completeLoop x i fuel k chart).length = chart.length
  | 0, _, _ => rfl
  | fuel + 1, k, chart => by
    rw [completeLoop]
    cases hy : (chartGet chart x.start).get? k with
    | none => rfl
    | some y =>
      rw [completeLoop_length x i fuel (k + 1) _]
      split <;> simp [completeInsert]

theorem processItem_length (g : Grammar) (toks : List Token) (ex : Nat) (chart : Chart)
    (i : Nat) (x : Item) : (processItem g toks ex chart i x).length = chart.length := by
  unfold processItem
  split
  · rw [completeLoop_length]
  · cases x.nextSymbol with
    | none => rfl
    | some sym =>
      simp only []
      split
      · simp [predictStep]
      · cases toks.get? i with
        | none => rfl
        | some t =>
          simp only []
          split
          · simp [scanStep]
          · rfl

theorem passLoop_length (g : Grammar) (toks : List Token) (ex : Nat) :
    ∀ (fuel i j : Nat) (chart : Chart),
      (passLoop g toks ex fuel i j chart).length = chart.length
  | 0, _, _, _ => rfl
  | fuel + 1, i, j, chart => by
    rw [passLoop]
    cases hx : (chartGet chart i).get? j with
    | none => rfl
    | some x =>
      rw [passLoop_length g toks ex fuel i (j + 1) _, processItem_length]

theorem runFrom_length (g : Grammar) (toks : List Token) (ex : Nat) :
    ∀ (c i : Nat) (chart : Chart), (runFrom g toks ex c i chart).length = chart.length
  | 0, _, _ => rfl
  | c + 1, i, chart => by
    rw [runFrom, runFrom_length g toks ex c (i + 1) _, passLoop_length]

theorem chartWf_insert {P : Item → Nat → Prop} {c : Chart} {i : Nat} {z : Item}
    (hwf : ChartWf P c) (hz : P z i) :
    ChartWf P (chartSet c i (addIfNew (chartGet c i) z)) := by
  intro k w hw
  rcases chartGet_chartSet_cases c i k (addIfNew (chartGet c i) z) with hc | ⟨hk, _, hc⟩
  · rw [hc] at hw
    exact hwf k w hw
  · subst hk
    rw [hc] at hw
    rcases mem_addIfNew hw with h' | rfl
    · exact hwf k w h'
    · exact hz

theorem completeLoop_wf {g : Grammar} {toks : List Token} {P : Item → Nat → Prop}
    (H : StepInv g toks P) {x : Item} {i : Nat}
    (hxP : P x i) (hxc : x.isComplete = true) :
    ∀ (fuel k : Nat) (chart : Chart), ChartWf P chart →
      ChartWf P (completeLoop x i fuel k chart)
  | 0, _, _, hwf => hwf
  | fuel + 1, k, chart, hwf => by
    rw [completeLoop]
    cases hy : (chartGet chart x.start).get? k with
    | none => exact hwf
    | some y =>
      apply completeLoop_wf H hxP hxc fuel (k + 1)
      split
      · next hcond =>
        exact chartWf_insert hwf
          (H.completeH x y i hxP hxc (hwf x.start y (List.get?_mem hy)) hcond.1 hcond.2)
      · exact hwf

theorem mem_foldl_addIfNew (mkI : List String → Item) :
    ∀ (prods : List (List String)) (l : List Item) (z : Item),
      z ∈ prods.foldl (fun acc rhs => addIfNew acc (mkI rhs)) l →
      z ∈ l ∨ ∃ rhs ∈ prods, z = mkI rhs
  | [], l, z, h => Or.inl h
  | p :: prods, l, z, h => by
    rcases mem_foldl_addIfNew mkI prods (addIfNew l (mkI p)) z h with h' | ⟨rhs, hr, rfl⟩
    · rcases mem_addIfNew h' with h'' | rfl
      · exact Or.inl h''
      · exact Or.inr ⟨p, List.mem_cons_self p prods, rfl⟩
    · exact Or.inr ⟨rhs, List.mem_cons_of_mem p hr, rfl⟩

theorem processItem_wf {g : Grammar} {toks : List Token} {P : Item → Nat → Prop}
    (H : StepInv g toks P) {ex : Nat} {chart : Chart} {i : Nat} {x : Item}
    (hlen : chart.length = toks.length + 1)
    (hx : x ∈ chartGet chart i) (hwf : ChartWf P chart) :
    ChartWf P (processItem g toks ex chart i x) := by
  have hxP : P x i := hwf i x hx
  have hi : i ≤ toks.length := by
    have := mem_chartGet_lt hx
    omega
  unfold processItem
  split
  · next hxc => exact completeLoop_wf H hxP hxc _ 0 chart hwf
  · next hxc =>
    cases hns : x.nextSymbol with
    | none => exact hwf
    | some sym =>
      simp only []
      split
      · next hnt =>
        unfold predictStep
        intro k w hw
        rcases chartGet_chartSet_cases chart i k _ with hc | ⟨hk, _, hc⟩
        · rw [hc] at hw
          exact hwf k w hw
        · subst hk
          rw [hc] at hw
          rcases mem_foldl_addIfNew _ _ _ _ hw with h' | ⟨rhs, hr, rfl⟩
          · exact hwf _ w h'
          · exact H.predictH sym rhs _ hr hnt hi
      · next hnt =>
        cases hti : toks.get? i with
        | none => exact hwf
        | some t =>
          simp only []
          split
          · next hkind =>
            unfold scanStep
            intro k w hw
            rcases chartGet_chartSet_cases chart (i + 1) k _ with hc | ⟨hk, _, hc⟩
            · rw [hc] at hw
              exact hwf k w hw
            · subst hk
              rw [hc] at hw
              rcases List.mem_append.mp hw with h' | h'
              · exact hwf _ w h'
              · rw [List.mem_singleton.mp h']
                have hns' : x.nextSymbol = some t.kind := by rw [hns, hkind]
                have hnt' : isNonTerminal g t.kind = false := by
                  rw [← hkind]
                  exact Bool.eq_false_iff.mpr hnt
                exact H.scanH x t i hxP (Bool.eq_false_iff.mpr hxc) hns' hnt' hti
          · exact hwf

theorem passLoop_wf {g : Grammar} {toks : List Token} {P : Item → Nat → Prop}
    (H : StepInv g toks P) (ex : Nat) :
    ∀ (fuel i j : Nat) (chart : Chart), chart.length = toks.length + 1 →
      ChartWf P chart → ChartWf P (passLoop g toks ex fuel i j chart)
  | 0, _, _, _, _, hwf => hwf
  | fuel + 1, i, j, chart, hlen, hwf => by
    rw [passLoop]
    cases hx : (chartGet chart i).get? j with
    | none => exact hwf
    | some x =>
      exact passLoop_wf H ex fuel i (j + 1) _
        (by rw [processItem_length]; exact hlen)
        (processItem_wf H hlen (List.get?_mem hx) hwf)

theorem runFrom_wf {g : Grammar} {toks : List Token} {P : Item → Nat → Prop}
    (H : StepInv g toks P) (ex : Nat) :
    ∀ (c i : Nat) (chart : Chart), chart.length = toks.length + 1 →
      ChartWf P chart → ChartWf P (runFrom g toks ex c i chart)
  | 0, _, _, _, hwf => hwf
  | c + 1, i, chart, hlen, hwf => by
    rw [runFrom]
    exact runFrom_wf H ex c (i + 1) _
      (by rw [passLoop_length]; exact hlen)
      (passLoop_wf H ex _ i 0 chart hlen hwf)

theorem recognize_wf {g : Grammar} {toks : List Token} {P : Item → Nat → Prop}
    {s : String} {ex : Nat} (H : StepInv g toks P)
    (hinit : ∀ rhs ∈ lookupG g s, P (Item.mk (s, rhs) 0 0 .nil) 0) :
    ChartWf P (recognizeC g toks ex s) := by
  unfold recognizeC
  apply runFrom_wf H ex _ 0 _ (initChart_length g s toks.length)
  intro k w hw
  cases k with
  | zero =>
    rw [chartGet_initChart_zero] at hw
    rcases List.mem_map.mp hw with ⟨rhs, hr, rfl⟩
    exact hinit rhs hr
  | succ k =>
    rw [chartGet_initChart_succ] at hw
    exact absurd hw (List.not_mem_nil w)

theorem nextSymbol_some {x : Item} {sym : String} (h : x.nextSymbol = some sym) :
    x.isComplete = false ∧ x.rule.2.get? x.dot = some sym := by
  unfold Item.nextSymbol at h
  split at h
  · exact absurd h (by simp)
  · next hc => exact ⟨Bool.eq_false_iff.mpr hc, h⟩

theorem isComplete_iff {x : Item} : x.isComplete = true ↔ x.rule.2.length ≤ x.dot := by
  simp [Item.isComplete]

theorem dot_lt_of_nextSymbol {x : Item} {sym : String} (h : x.nextSymbol = some sym) :
    x.dot < x.rule.2.length :=
  List.get?_eq_some.mp (nextSymbol_some h).2 |>.choose

theorem take_snoc_of_get? {l : List String} {n : Nat} {a : String} (h : l.get? n = some a) :
    l.take (n + 1) = l.take n ++ [a] := by
  rw [List.take_succ, ← List.get?_eq_getElem?, h]
  rfl

theorem forall₂_snoc {R : String → Token ⊕ Item → Prop} {l₁ : List String}
    {l₂ : List (Token ⊕ Item)} (h : List.Forall₂ R l₁ l₂) {a : String} {b : Token ⊕ Item}
    (hab : R a b) : List.Forall₂ R (l₁ ++ [a]) (l₂ ++ [b]) := by
  induction h with
  | nil => exact List.Forall₂.cons hab List.Forall₂.nil
  | cons h' _ ih => exact List.Forall₂.cons h' ih

theorem spanK_snocTok {toks : List Token} {cs : Kids} {s e : Nat}
    (hsp : SpanK toks cs s e) : ∀ {t : Token}, toks.get? e = some t →
    SpanK toks (cs.snocTok t) s (e + 1) := by
  induction hsp with
  | nil s => exact fun {t} ht => SpanK.tok t .nil s (s + 1) ht (SpanK.nil (s + 1))
  | tok t' cs' s' e' hget _ ih =>
    exact fun {t} ht => SpanK.tok t' _ s' (e' + 1) hget (ih ht)
  | sub y cs' s' m' e' hy hspy _ _ ih =>
    exact fun {t} ht => SpanK.sub y _ s' m' (e' + 1) hy hspy (ih ht)

theorem spanK_snocSub {toks : List Token} {cs : Kids} {s m : Nat}
    (hsp : SpanK toks cs s m) : ∀ {y : Item} {e : Nat}, y.start = m →
    SpanK toks y.children m e → SpanK toks (cs.snocSub y) s e := by
  induction hsp with
  | nil s =>
    intro y e hy hspy
    exact SpanK.sub y .nil s e e hy hspy (SpanK.nil e)
  | tok t' cs' s' e' hget _ ih =>
    intro y e hy hspy
    exact SpanK.tok t' _ s' e hget (ih hy hspy)
  | sub z cs' s' m' e' hz hspz _ _ ih =>
    intro y e hy hspy
    exact SpanK.sub z _ s' m' e hz hspz (ih hy hspy)

theorem stepInv_wfItem (g : Grammar) (toks : List Token) : StepInv g toks (WfItem g toks) := by
  constructor
  · intro b rhs i hb hnt hi
    exact ⟨hb, Nat.zero_le _, Nat.le_refl i, hi, by simp [Kids.toList], SpanK.nil i⟩
  · intro x t i hP hnc hns hnt hti
    obtain ⟨h1, h2, h3, h4, h5, h6⟩ := hP
    have hget := (nextSymbol_some hns).2
    refine ⟨h1, ?_, ?_, ?_, ?_, ?_⟩
    · exact dot_lt_of_nextSymbol hns
    · simp only [advTok, Item.start_mk]
      omega
    · have := List.get?_eq_some.mp hti |>.choose
      omega
    · simp only [advTok, Item.rule_mk, Item.dot_mk, Item.children_mk, Kids.toList_snocTok]
      rw [take_snoc_of_get? hget]
      exact forall₂_snoc h5 ⟨hnt, rfl⟩
    · simp only [advTok, Item.start_mk, Item.children_mk, Kids.toList_snocTok]
      exact spanK_snocTok h6 hti
  · intro x y i hPx hxc hPy hync hyns
    obtain ⟨hx1, hx2, hx3, hx4, hx5, hx6⟩ := hPx
    obtain ⟨hy1, hy2, hy3, hy4, hy5, hy6⟩ := hPy
    have hget := (nextSymbol_some hyns).2
    refine ⟨hy1, ?_, ?_, hx4, ?_, ?_⟩
    · exact dot_lt_of_nextSymbol hyns
    · simp only [advSub, Item.start_mk]
      omega
    · simp only [advSub, Item.rule_mk, Item.dot_mk, Item.children_mk, Kids.toList_snocSub]
      rw [take_snoc_of_get? hget]
      exact forall₂_snoc hy5 ⟨rfl, hxc, hx1⟩
    · simp only [advSub, Item.start_mk, Item.children_mk, Kids.toList_snocSub]
      exact spanK_snocSub hy6 rfl hx6

theorem recognize_wfItem (g : Grammar) (toks : List Token) (ex : Nat) (s : String) :
    ChartWf (WfItem g toks) (recognizeC g toks ex s) :=
  recognize_wf (stepInv_wfItem g toks)
    (fun rhs hr =>
      ⟨hr, Nat.zero_le _, Nat.le_refl 0, Nat.zero_le _, by simp [Kids.toList], SpanK.nil 0⟩)

theorem spanK_le {toks : List Token} {cs : Kids} {s e : Nat} (hsp : SpanK toks cs s e) :
    s ≤ e := by
  induction hsp with
  | nil s => exact Nat.le_refl s
  | tok t cs s e hget _ ih => omega
  | sub y cs s m e hy _ _ ih1 ih2 => omega

theorem treeOfItem_eq : ∀ (y : Item),
    treeOfItem y = PTree.node y.rule.1 false (treeOfKids y.children)
  | .mk _ _ _ _ => rfl

theorem spanK_yield {toks : List Token} {cs : Kids} {s e : Nat} (hsp : SpanK toks cs s e) :
    treeYieldL (treeOfKids cs) = ((toks.drop s).take (e - s)).map Token.lexeme := by
  induction hsp with
  | nil s => simp [treeOfKids, treeYieldL]
  | tok t cs s e hget hsp ih =>
    have hse : s + 1 ≤ e := spanK_le hsp
    obtain ⟨hlt, hget'⟩ := List.getElem?_eq_some.mp (by rw [← List.get?_eq_getElem?]; exact hget)
    have hdrop : toks.drop s = t :: toks.drop (s + 1) := by
      rw [List.drop_eq_getElem_cons hlt, hget']
    have hsub : e - s = (e - (s + 1)) + 1 := by omega
    rw [hdrop, hsub]
    simp only [treeOfKids, treeYieldL, treeYield, List.take_succ_cons, List.map_cons]
    simp [ih]
  | sub y cs s m e hy hspy hsp ih1 ih2 =>
    have hsm : s ≤ m := spanK_le hspy
    have hme : m ≤ e := spanK_le hsp
    have hsplit : e - s = (m - s) + (e - m) := by omega
    rw [hsplit, List.take_add, List.map_append]
    simp only [treeOfKids, treeYieldL, treeOfItem_eq, treeYield, Bool.false_eq_true,
      if_false, List.nil_append]
    rw [ih1, ih2]
    simp only [List.drop_drop]
    have hm2 : s + (m - s) = m := by omega
    rw [hm2]

theorem isAccepting_props {s : String} {x : Item} (h : isAccepting s x = true) :
    x.rule.1 = s ∧ x.isComplete = true ∧ x.start = 0 := by
  unfold isAccepting at h
  simp only [Bool.and_eq_true, beq_iff_eq, Nat.beq_eq_true_eq] at h
  exact ⟨h.1.1, h.1.2, h.2⟩

theorem parseTokens_eq_cases {g : Grammar} (toks : List Token) {s : String}
    (hs : startSym g = some s) (hse : s ≠ "") :
    (parseTokens g toks).1 =
      (chartGet (recognizeC g toks 0 s) toks.length).any (isAccepting s) ∧
    (parseTokens g toks).2 =
      (if (chartGet (recognizeC g toks 0 s) toks.length).any (isAccepting s)
       then buildTree s (recognizeC g toks 0 s) toks.length else none) := by
  unfold parseTokens
  rw [hs]
  by_cases h : (chartGet (recognizeC g toks 0 s) toks.length).any (isAccepting s) = true
  · simp [h, hse]
  · simp [Bool.eq_false_iff.mpr h, hse]

theorem accepted_tree {g : Grammar} {toks : List Token} {t : PTree}
    (h : parseTokens g toks = (true, some t)) :
    ∃ s x, startSym g = some s ∧ x ∈ chartGet (recognizeC g toks 0 s) toks.length ∧
      isAccepting s x = true ∧ treeOfItem x = t := by
  cases hs : startSym g with
  | none =>
    unfold parseTokens at h
    rw [hs] at h
    simp at h
  | some s =>
    by_cases hse : s = ""
    · subst hse
      unfold parseTokens at h
      rw [hs] at h
      simp at h
    · obtain ⟨h1, h2⟩ := parseTokens_eq_cases toks hs hse
      rw [h] at h1 h2
      simp only [] at h1 h2
      rw [if_pos (Eq.symm h1)] at h2
      unfold buildTree at h2
      cases hf : (chartGet (recognizeC g toks 0 s) toks.length).find? (isAccepting s) with
      | none => rw [hf] at h2; simp at h2
      | some x =>
        rw [hf] at h2
        simp only [Option.map_some'] at h2
        exact ⟨s, x, rfl, List.mem_of_find?_eq_some hf, List.find?_some hf,
          by injection h2 with h2'; exact h2'.symm⟩

theorem accepted_yield {g : Grammar} {toks : List Token} {t : PTree}
    (h : parseTokens g toks = (true, some t)) :
    treeYield t = toks.map Token.lexeme := by
  obtain ⟨s, x, hs, hmem, hacc, htree⟩ := accepted_tree h
  obtain ⟨_, _, _, _, _, hspan⟩ := recognize_wfItem g toks 0 s toks.length x hmem
  have hstart : x.start = 0 := (isAccepting_props hacc).2.2
  rw [← htree, treeOfItem_eq]
  simp only [treeYield, Bool.false_eq_true, if_false, List.nil_append]
  rw [spanK_yield (hstart ▸ hspan)]
  simp

theorem phiEq_refl (l : List Item) : phiEq l l := rfl

theorem phiEq_trans {a b c : List Item} (h1 : phiEq a b) (h2 : phiEq b c) : phiEq a c := by
  unfold phiEq at *
  omega

theorem phiEq_addIfNew (l : List Item) (x : Item) : phiEq l (addIfNew l x) := by
  unfold phiEq
  have := addIfNew_len_card l x
  omega

theorem mem_allIds {g : Grammar} {n : Nat} {r : Rule} {d s : Nat}
    (hr : ruleInG g r) (hd : d ≤ r.2.length) (hs : s ≤ n) : (r, d, s) ∈ allIds g n := by
  unfold ruleInG lookupG at hr
  cases hf : g.find? (fun p => p.1 == r.1) with
  | none => rw [hf] at hr; exact absurd hr (List.not_mem_nil _)
  | some p =>
    rw [hf] at hr
    have hpg : p ∈ g := List.mem_of_find?_eq_some hf
    have hp1 : p.1 = r.1 := by
      have := List.find?_some hf
      simpa using this
    unfold allIds
    rw [List.mem_flatMap]
    refine ⟨p, hpg, ?_⟩
    rw [List.mem_flatMap]
    refine ⟨r.2, hr, ?_⟩
    rw [List.mem_flatMap]
    refine ⟨d, by rw [List.mem_range]; omega, ?_⟩
    rw [List.mem_map]
    refine ⟨s, by rw [List.mem_range]; omega, ?_⟩
    rw [hp1]

theorem cardIds_le_allIds {g : Grammar} {toks : List Token} {l : List Item} {k : Nat}
    (h : ∀ x ∈ l, WfItem g toks x k) :
    cardIds l ≤ (allIds g toks.length).length := by
  unfold cardIds
  calc (l.map idOf).toFinset.card ≤ (allIds g toks.length).toFinset.card := by
        apply Finset.card_le_card
        intro a ha
        rw [List.mem_toFinset] at ha ⊢
        obtain ⟨x, hx, rfl⟩ := List.mem_map.mp ha
        obtain ⟨h1, h2, h3, h4, _, _⟩ := h x hx
        exact mem_allIds h1 h2 (by omega)
    _ ≤ (allIds g toks.length).length := List.toFinset_card_le _

theorem chart_cardIds_le {g : Grammar} (toks : List Token) {chart : Chart} (m : Nat)
    (hwf : ChartWf (WfItem g toks) chart) :
    cardIds (chartGet chart m) ≤ (allIds g toks.length).length :=
  cardIds_le_allIds (fun x hx => hwf m x hx)

theorem completeInsert_phi_at (chart : Chart) (i : Nat) (y x : Item) (m : Nat) :
    phiEq (chartGet chart m) (chartGet (completeInsert chart i y x) m) := by
  unfold completeInsert
  rcases chartGet_chartSet_cases chart i m (addIfNew (chartGet chart i) (advSub y x))
    with hc | ⟨hk, _, hc⟩
  · rw [hc]; exact phiEq_refl _
  · subst hk
    rw [hc]
    exact phiEq_addIfNew _ _

theorem completeLoop_phi_at (x : Item) (i m : Nat) : ∀ (fuel k : Nat) (chart : Chart),
    phiEq (chartGet chart m) (chartGet (completeLoop x i fuel k chart) m)
  | 0, _, chart => phiEq_refl _
  | fuel + 1, k, chart => by
    rw [completeLoop]
    cases hy : (chartGet chart x.start).get? k with
    | none => exact phiEq_refl _
    | some y =>
      refine phiEq_trans
        (b := chartGet (if y.isComplete = false ∧ y.nextSymbol = some x.rule.1
          then completeInsert chart i y x else chart) m) ?_
        (completeLoop_phi_at x i m fuel (k + 1) _)
      by_cases hcond : y.isComplete = false ∧ y.nextSymbol = some x.rule.1
      · rw [if_pos hcond]
        exact completeInsert_phi_at chart i y x m
      · rw [if_neg hcond]
        exact phiEq_refl _

theorem foldl_addIfNew_phi (mkI : List String → Item) :
    ∀ (prods : List (List String)) (l : List Item),
      phiEq l (prods.foldl (fun acc rhs => addIfNew acc (mkI rhs)) l)
  | [], l => phiEq_refl l
  | p :: prods, l =>
    phiEq_trans (phiEq_addIfNew l (mkI p)) (foldl_addIfNew_phi mkI prods (addIfNew l (mkI p)))

theorem processItem_phi_at_i (g : Grammar) (toks : List Token) (ex : Nat) (chart : Chart)
    (i : Nat) (x : Item) :
    phiEq (chartGet chart i) (chartGet (processItem g toks ex chart i x) i) := by
  unfold processItem
  split
  · exact completeLoop_phi_at x i i _ 0 chart
  · cases x.nextSymbol with
    | none => exact phiEq_refl _
    | some sym =>
      simp only []
      split
      · unfold predictStep
        rcases chartGet_chartSet_cases chart i i _ with hc | ⟨_, _, hc⟩ <;> rw [hc]
        · exact phiEq_refl _
        · exact foldl_addIfNew_phi _ _ _
      · cases toks.get? i with
        | none => exact phiEq_refl _
        | some t =>
          simp only []
          split
          · unfold scanStep
            rw [chartGet_set_ne _ (by omega)]
            exact phiEq_refl _
          · exact phiEq_refl _

theorem completeLoop_stop {x : Item} {i k : Nat} {chart : Chart}
    (h : (chartGet chart x.start).length ≤ k) :
    ∀ fuel, completeLoop x i fuel k chart = chart
  | 0 => rfl
  | fuel + 1 => by rw [completeLoop, List.get?_eq_none.mpr h]

theorem completeLoop_drop_extra {g : Grammar} {toks : List Token} {x : Item} {i : Nat}
    (hxP : WfItem g toks x i) (hxc : x.isComplete = true) :
    ∀ (fuel k : Nat) (chart : Chart) (e : Nat),
      ChartWf (WfItem g toks) chart →
      (chartGet chart x.start).length + (allIds g toks.length).length ≤
        fuel + k + cardIds (chartGet chart x.start) →
      completeLoop x i (e + fuel) k chart = completeLoop x i fuel k chart
  | 0, k, chart, e, hwf, hbound => by
    have hcard := chart_cardIds_le toks x.start hwf
    have hstop : (chartGet chart x.start).length ≤ k := by omega
    rw [completeLoop_stop hstop, completeLoop_stop hstop]
  | fuel + 1, k, chart, e, hwf, hbound => by
    have hEf : e + (fuel + 1) = (e + fuel) + 1 := rfl
    rw [hEf]
    cases hy : (chartGet chart x.start).get? k with
    | none =>
      have hstop : (chartGet chart x.start).length ≤ k := List.get?_eq_none.mp hy
      rw [completeLoop_stop hstop, completeLoop_stop hstop]
    | some y =>
      have hred : ∀ f, completeLoop x i (f + 1) k chart
          = completeLoop x i f (k + 1)
            (if y.isComplete = false ∧ y.nextSymbol = some x.rule.1
             then completeInsert chart i y x else chart) := by
        intro f
        rw [completeLoop, hy]
      rw [hred (e + fuel), hred fuel]
      by_cases hcond : y.isComplete = false ∧ y.nextSymbol = some x.rule.1
      · rw [if_pos hcond]
        apply completeLoop_drop_extra hxP hxc fuel (k + 1) _ e
        · exact chartWf_insert hwf ((stepInv_wfItem g toks).completeH x y i hxP hxc
            (hwf x.start y (List.get?_mem hy)) hcond.1 hcond.2)
        · have hphi := completeInsert_phi_at chart i y x x.start
          unfold phiEq at hphi
          omega
      · rw [if_neg hcond]
        apply completeLoop_drop_extra hxP hxc fuel (k + 1) chart e hwf
        omega

theorem processItem_drop_extra {g : Grammar} {toks : List Token} {chart : Chart} {i : Nat}
    {x : Item} (ex : Nat) (hwf : ChartWf (WfItem g toks) chart)
    (hx : x ∈ chartGet chart i) :
    processItem g toks ex chart i x = processItem g toks 0 chart i x := by
  unfold processItem
  split
  · next hxc =>
    have h1 : fuelFor g toks.length (chartGet chart x.start) ex
        = ex + fuelFor g toks.length (chartGet chart x.start) 0 := by
      unfold fuelFor; omega
    rw [h1]
    apply completeLoop_drop_extra (hwf i x hx) hxc _ 0 chart ex hwf
    unfold fuelFor
    omega
  · rfl

theorem passLoop_stop {g : Grammar} {toks : List Token} {ex i j : Nat} {chart : Chart}
    (h : (chartGet chart i).length ≤ j) :
    ∀ fuel, passLoop g toks ex fuel i j chart = chart
  | 0 => rfl
  | fuel + 1 => by rw [passLoop, List.get?_eq_none.mpr h]

theorem passLoop_drop_extra {g : Grammar} {toks : List Token} (ex : Nat) :
    ∀ (fuel i j : Nat) (chart : Chart) (e : Nat),
      chart.length = toks.length + 1 →
      ChartWf (WfItem g toks) chart →
      (chartGet chart i).length + (allIds g toks.length).length ≤
        fuel + j + cardIds (chartGet chart i) →
      passLoop g toks ex (e + fuel) i j chart = passLoop g toks 0 fuel i j chart
  | 0, i, j, chart, e, hlen, hwf, hbound => by
    have hcard := chart_cardIds_le toks i hwf
    have hstop : (chartGet chart i).length ≤ j := by omega
    rw [passLoop_stop hstop, passLoop_stop hstop]
  | fuel + 1, i, j, chart, e, hlen, hwf, hbound => by
    have hEf : e + (fuel + 1) = (e + fuel) + 1 := rfl
    rw [hEf]
    cases hx : (chartGet chart i).get? j with
    | none =>
      have hstop : (chartGet chart i).length ≤ j := List.get?_eq_none.mp hx
      rw [passLoop_stop hstop, passLoop_stop hstop]
    | some x =>
      have hred : ∀ ex' f, passLoop g toks ex' (f + 1) i j chart
          = passLoop g toks ex' f i (j + 1) (processItem g toks ex' chart i x) := by
        intro ex' f
        rw [passLoop, hx]
      rw [hred ex (e + fuel), hred 0 fuel,
        processItem_drop_extra ex hwf (List.get?_mem hx)]
      apply passLoop_drop_extra ex fuel i (j + 1) _ e
      · rw [processItem_length]; exact hlen
      · exact processItem_wf (stepInv_wfItem g toks) hlen (List.get?_mem hx) hwf
      · have hphi := processItem_phi_at_i g toks 0 chart i x
        unfold phiEq at hphi
        omega

theorem initChart_wfItem (g : Grammar) (toks : List Token) (s : String) :
    ChartWf (WfItem g toks) (initChart g s toks.length) := by
  intro k w hw
  cases k with
  | zero =>
    rw [chartGet_initChart_zero] at hw
    rcases List.mem_map.mp hw with ⟨rhs, hr, rfl⟩
    exact ⟨hr, Nat.zero_le _, Nat.le_refl 0, Nat.zero_le _, by simp [Kids.toList], SpanK.nil 0⟩
  | succ k =>
    rw [chartGet_initChart_succ] at hw
    exact absurd hw (List.not_mem_nil w)

theorem runFrom_drop_extra {g : Grammar} {toks : List Token} (ex : Nat) :
    ∀ (c i : Nat) (chart : Chart),
      chart.length = toks.length + 1 →
      ChartWf (WfItem g toks) chart →
      runFrom g toks ex c i chart = runFrom g toks 0 c i chart
  | 0, _, _, _, _ => rfl
  | c + 1, i, chart, hlen, hwf => by
    rw [runFrom, runFrom]
    have h1 : fuelFor g toks.length (chartGet chart i) ex
        = ex + fuelFor g toks.length (chartGet chart i) 0 := by
      unfold fuelFor; omega
    rw [h1, passLoop_drop_extra ex (fuelFor g toks.length (chartGet chart i) 0) i 0 chart ex
      hlen hwf (by unfold fuelFor; omega)]
    exact runFrom_drop_extra ex c (i + 1) _
      (by rw [passLoop_length]; exact hlen)
      (passLoop_wf (stepInv_wfItem g toks) 0 _ i 0 chart hlen hwf)

theorem recognizeC_drop_extra (g : Grammar) (toks : List Token) (ex : Nat) (s : String) :
    recognizeC g toks ex s = recognizeC g toks 0 s := by
  unfold recognizeC
  exact runFrom_drop_extra ex (toks.length + 1) 0 _ (initChart_length g s toks.length)
    (initChart_wfItem g toks s)

theorem completeInsert_untouched {chart : Chart} {i : Nat} (y x : Item) {k : Nat}
    (hk : k ≠ i) : chartGet (completeInsert chart i y x) k = chartGet chart k := by
  unfold completeInsert
  exact chartGet_set_ne _ hk

theorem completeLoop_untouched (x : Item) (i : Nat) {k : Nat} (hk : k ≠ i) :
    ∀ (fuel k0 : Nat) (chart : Chart),
      chartGet (completeLoop x i fuel k0 chart) k = chartGet chart k
  | 0, _, chart => rfl
  | fuel + 1, k0, chart => by
    cases hy : (chartGet chart x.start).get? k0 with
    | none => rw [completeLoop, hy]
    | some y =>
      have hred : completeLoop x i (fuel + 1) k0 chart
          = completeLoop x i fuel (k0 + 1)
            (if y.isComplete = false ∧ y.nextSymbol = some x.rule.1
             then completeInsert chart i y x else chart) := by
        rw [completeLoop, hy]
      rw [hred, completeLoop_untouched x i hk fuel (k0 + 1) _]
      by_cases hcond : y.isComplete = false ∧ y.nextSymbol = some x.rule.1
      · rw [if_pos hcond, completeInsert_untouched y x hk]
      · rw [if_neg hcond]

theorem completeInsert_grows (chart : Chart) (i : Nat) (y x : Item) (m : Nat) :
    growsTo (chartGet chart m) (chartGet (completeInsert chart i y x) m) := by
  unfold completeInsert
  rcases chartGet_chartSet_cases chart i m (addIfNew (chartGet chart i) (advSub y x))
    with hc | ⟨hk, _, hc⟩
  · rw [hc]; exact growsTo_refl _
  · subst hk
    rw [hc]
    exact growsTo_addIfNew _ _

theorem completeLoop_grows (x : Item) (i m : Nat) : ∀ (fuel k0 : Nat) (chart : Chart),
    growsTo (chartGet chart m) (chartGet (completeLoop x i fuel k0 chart) m)
  | 0, _, chart => growsTo_refl _
  | fuel + 1, k0, chart => by
    cases hy : (chartGet chart x.start).get? k0 with
    | none => rw [completeLoop, hy]; exact growsTo_refl _
    | some y =>
      have hred : completeLoop x i (fuel + 1) k0 chart
          = completeLoop x i fuel (k0 + 1)
            (if y.isComplete = false ∧ y.nextSymbol = some x.rule.1
             then completeInsert chart i y x else chart) := by
        rw [completeLoop, hy]
      rw [hred]
      refine growsTo_trans (b := chartGet
        (if y.isComplete = false ∧ y.nextSymbol = some x.rule.1
         then completeInsert chart i y x else chart) m) ?_
        (completeLoop_grows x i m fuel (k0 + 1) _)
      by_cases hcond : y.isComplete = false ∧ y.nextSymbol = some x.rule.1
      · rw [if_pos hcond]; exact completeInsert_grows chart i y x m
      · rw [if_neg hcond]; exact growsTo_refl _

theorem foldl_addIfNew_grows (mkI : List String → Item) :
    ∀ (prods : List (List String)) (l : List Item),
      growsTo l (prods.foldl (fun acc rhs => addIfNew acc (mkI rhs)) l)
  | [], l => growsTo_refl l
  | p :: prods, l =>
    growsTo_trans (growsTo_addIfNew l (mkI p))
      (foldl_addIfNew_grows mkI prods (addIfNew l (mkI p)))

theorem predictStep_untouched {g : Grammar} {chart : Chart} {b : String} {i k : Nat}
    (hk : k ≠ i) : chartGet (predictStep g chart b i) k = chartGet chart k := by
  unfold predictStep
  exact chartGet_set_ne _ hk

theorem predictStep_grows (g : Grammar) (chart : Chart) (b : String) (i m : Nat) :
    growsTo (chartGet chart m) (chartGet (predictStep g chart b i) m) := by
  unfold predictStep
  rcases chartGet_chartSet_cases chart i m _ with hc | ⟨hk, _, hc⟩
  · rw [hc]; exact growsTo_refl _
  · subst hk
    rw [hc]
    exact foldl_addIfNew_grows _ _ _

theorem scanStep_untouched {chart : Chart} {x : Item} {i : Nat} {t : Token} {k : Nat}
    (hk : k ≠ i + 1) : chartGet (scanStep chart x i t) k = chartGet chart k := by
  unfold scanStep
  exact chartGet_set_ne _ hk

theorem scanStep_grows (chart : Chart) (x : Item) (i : Nat) (t : Token) (m : Nat) :
    growsTo (chartGet chart m) (chartGet (scanStep chart x i t) m) := by
  unfold scanStep
  rcases chartGet_chartSet_cases chart (i + 1) m _ with hc | ⟨hk, _, hc⟩
  · rw [hc]; exact growsTo_refl _
  · subst hk
    rw [hc]
    exact ⟨[advTok x t], rfl⟩

theorem processItem_untouched {g : Grammar} {toks : List Token} {ex : Nat} {chart : Chart}
    {i : Nat} {x : Item} {k : Nat} (hk1 : k ≠ i) (hk2 : k ≠ i + 1) :
    chartGet (processItem g toks ex chart i x) k = chartGet chart k := by
  unfold processItem
  split
  · exact completeLoop_untouched x i hk1 _ 0 chart
  · cases x.nextSymbol with
    | none => rfl
    | some sym =>
      simp only []
      split
      · exact predictStep_untouched hk1
      · cases toks.get? i with
        | none => rfl
        | some t =>
          simp only []
          split
          · exact scanStep_untouched hk2
          · rfl

theorem processItem_grows (g : Grammar) (toks : List Token) (ex : Nat) (chart : Chart)
    (i : Nat) (x : Item) (m : Nat) :
    growsTo (chartGet chart m) (chartGet (processItem g toks ex chart i x) m) := by
  unfold processItem
  split
  · exact completeLoop_grows x i m _ 0 chart
  · cases x.nextSymbol with
    | none => exact growsTo_refl _
    | some sym =>
      simp only []
      split
      · exact predictStep_grows g chart sym i m
      · cases toks.get? i with
        | none => exact growsTo_refl _
        | some t =>
          simp only []
          split
          · exact scanStep_grows chart x i t m
          · exact growsTo_refl _

theorem completeInsert_nodup {chart : Chart} {i : Nat} (y x : Item)
    (hn : NodupChart chart) : NodupChart (completeInsert chart i y x) := by
  intro k
  unfold completeInsert
  rcases chartGet_chartSet_cases chart i k (addIfNew (chartGet chart i) (advSub y x))
    with hc | ⟨hk, _, hc⟩
  · rw [hc]; exact hn k
  · subst hk
    rw [hc]
    exact nodup_addIfNew _ (hn k)

theorem completeLoop_nodup (x : Item) (i : Nat) : ∀ (fuel k0 : Nat) (chart : Chart),
    NodupChart chart → NodupChart (completeLoop x i fuel k0 chart)
  | 0, _, _, hn => hn
  | fuel + 1, k0, chart, hn => by
    cases hy : (chartGet chart x.start).get? k0 with
    | none => rw [completeLoop, hy]; exact hn
    | some y =>
      have hred : completeLoop x i (fuel + 1) k0 chart
          = completeLoop x i fuel (k0 + 1)
            (if y.isComplete = false ∧ y.nextSymbol = some x.rule.1
             then completeInsert chart i y x else chart) := by
        rw [completeLoop, hy]
      rw [hred]
      apply completeLoop_nodup x i fuel (k0 + 1)
      by_cases hcond : y.isComplete = false ∧ y.nextSymbol = some x.rule.1
      · rw [if_pos hcond]; exact completeInsert_nodup y x hn
      · rw [if_neg hcond]; exact hn

theorem foldl_addIfNew_nodup (mkI : List String → Item) :
    ∀ (prods : List (List String)) (l : List Item),
      (l.map idOf).Nodup →
      ((prods.foldl (fun acc rhs => addIfNew acc (mkI rhs)) l).map idOf).Nodup
  | [], _, hn => hn
  | p :: prods, l, hn =>
    foldl_addIfNew_nodup mkI prods (addIfNew l (mkI p)) (nodup_addIfNew _ hn)

theorem predictStep_nodup {g : Grammar} {chart : Chart} {b : String} {i : Nat}
    (hn : NodupChart chart) : NodupChart (predictStep g chart b i) := by
  intro k
  unfold predictStep
  rcases chartGet_chartSet_cases chart i k _ with hc | ⟨hk, _, hc⟩
  · rw [hc]; exact hn k
  · subst hk
    rw [hc]
    exact foldl_addIfNew_nodup _ _ _ (hn k)

theorem processItem_cases (g : Grammar) (toks : List Token) (ex : Nat) (chart : Chart)
    (i : Nat) (x : Item) :
    processItem g toks ex chart i x
        = completeLoop x i (fuelFor g toks.length (chartGet chart x.start) ex) 0 chart
      ∨ (∃ b, processItem g toks ex chart i x = predictStep g chart b i)
      ∨ (∃ t, toks.get? i = some t ∧ x.nextSymbol = some t.kind ∧
          processItem g toks ex chart i x = scanStep chart x i t)
      ∨ processItem g toks ex chart i x = chart := by
  unfold processItem
  split
  · exact Or.inl rfl
  · cases hns : x.nextSymbol with
    | none => exact Or.inr (Or.inr (Or.inr rfl))
    | some sym =>
      simp only []
      split
      · exact Or.inr (Or.inl ⟨sym, rfl⟩)
      · cases hti : toks.get? i with
        | none => exact Or.inr (Or.inr (Or.inr rfl))
        | some t =>
          simp only []
          split
          · next hkind =>
            exact Or.inr (Or.inr (Or.inl ⟨t, rfl, by rw [hkind], rfl⟩))
          · exact Or.inr (Or.inr (Or.inr rfl))

theorem scanImage_of_untouched {g : Grammar} {toks : List Token} {ex : Nat} {chart : Chart}
    {i j : Nat} {x : Item} (hs : ScanImage chart i j)
    (hu : chartGet (processItem g toks ex chart i x) (i + 1) = chartGet chart (i + 1)) :
    ScanImage (processItem g toks ex chart i x) i (j + 1) := by
  intro y hy
  rw [hu] at hy
  obtain ⟨m, hm, z, hz, hid⟩ := hs y hy
  refine ⟨m, by omega, z, ?_, hid⟩
  rw [growsTo_get? (processItem_grows g toks ex chart i x i)
    (by rcases List.get?_eq_some.mp hz with ⟨h, _⟩; omega)]
  exact hz

theorem processItem_inv {g : Grammar} {toks : List Token} {ex : Nat} {chart : Chart}
    {i j : Nat} {x : Item}
    (hx : (chartGet chart i).get? j = some x)
    (hn : NodupChart chart) (hs : ScanImage chart i j) (he : EmptyFrom chart (i + 2)) :
    NodupChart (processItem g toks ex chart i x) ∧
      ScanImage (processItem g toks ex chart i x) i (j + 1) ∧
      EmptyFrom (processItem g toks ex chart i x) (i + 2) := by
  have hj : j < (chartGet chart i).length := by
    rcases List.get?_eq_some.mp hx with ⟨h, _⟩
    exact h
  have hemp : EmptyFrom (processItem g toks ex chart i x) (i + 2) := by
    intro k hk
    rw [processItem_untouched (by omega) (by omega)]
    exact he k hk
  rcases processItem_cases g toks ex chart i x with hc | ⟨b, hc⟩ | ⟨t, hti, hnext, hc⟩ | hc
  · refine ⟨?_, ?_, hemp⟩
    · rw [hc]; exact completeLoop_nodup x i _ 0 chart hn
    · refine scanImage_of_untouched hs ?_
      rw [hc]
      exact completeLoop_untouched x i (by omega) _ 0 chart
  · refine ⟨?_, ?_, hemp⟩
    · rw [hc]; exact predictStep_nodup hn
    · refine scanImage_of_untouched hs ?_
      rw [hc]
      exact predictStep_untouched (by omega)
  · -- the scan step ran: position i + 1 gains exactly the advance of x
    refine ⟨?_, ?_, hemp⟩
    · intro k
      rw [hc]
      unfold scanStep
      rcases chartGet_chartSet_cases chart (i + 1) k (chartGet chart (i + 1) ++ [advTok x t])
        with hcc | ⟨hk, _, hcc⟩
      · rw [hcc]; exact hn k
      · subst hk
        rw [hcc, List.map_append]
        simp only [List.map_cons, List.map_nil]
        refine List.Nodup.append (hn (i + 1)) (List.nodup_singleton _) ?_
        intro a ha hb
        rw [List.mem_singleton.mp hb] at ha
        obtain ⟨w, hw, hwid⟩ := List.mem_map.mp ha
        obtain ⟨m, hm, z, hz, hid⟩ := hs w hw
        rw [hwid] at hid
        have hzx : idOf z = idOf x := by
          have h2 : advId (idOf z) = advId (idOf x) := by
            rw [← hid]
            rfl
          exact advId_inj h2
        have hmap : (List.map idOf (chartGet chart i)).get? m
            = (List.map idOf (chartGet chart i)).get? j := by
          rw [List.get?_map, List.get?_map, hx, hz, Option.map_some', Option.map_some', hzx]
        have := List.get?_inj (by rw [List.length_map]; omega) (hn i) hmap
        omega
    · intro y hy
      rw [hc] at hy
      unfold scanStep at hy
      rcases chartGet_chartSet_cases chart (i + 1) (i + 1)
          (chartGet chart (i + 1) ++ [advTok x t]) with hcc | ⟨_, _, hcc⟩
      · rw [hcc] at hy
        obtain ⟨m, hm, z, hz, hid⟩ := hs y hy
        exact ⟨m, by omega, z,
          by rw [hc, scanStep_untouched (by omega)]; exact hz, hid⟩
      · rw [hcc] at hy
        rcases List.mem_append.mp hy with hold | hnew
        · obtain ⟨m, hm, z, hz, hid⟩ := hs y hold
          exact ⟨m, by omega, z,
            by rw [hc, scanStep_untouched (by omega)]; exact hz, hid⟩
        · rw [List.mem_singleton.mp hnew]
          exact ⟨j, by omega, x,
            by rw [hc, scanStep_untouched (by omega)]; exact hx, rfl⟩
  · refine ⟨?_, ?_, hemp⟩
    · rw [hc]; exact hn
    · refine scanImage_of_untouched hs ?_
      rw [hc]

theorem passLoop_inv {g : Grammar} {toks : List Token} {ex : Nat} :
    ∀ (fuel i j : Nat) (chart : Chart),
      NodupChart chart → ScanImage chart i j → EmptyFrom chart (i + 2) →
      NodupChart (passLoop g toks ex fuel i j chart) ∧
        EmptyFrom (passLoop g toks ex fuel i j chart) (i + 2)
  | 0, _, _, _, hn, _, he => ⟨hn, he⟩
  | fuel + 1, i, j, chart, hn, hs, he => by
    cases hx : (chartGet chart i).get? j with
    | none =>
      rw [passLoop, hx]
      exact ⟨hn, he⟩
    | some x =>
      have hred : passLoop g toks ex (fuel + 1) i j chart
          = passLoop g toks ex fuel i (j + 1) (processItem g toks ex chart i x) := by
        rw [passLoop, hx]
      rw [hred]
      obtain ⟨hn', hs', he'⟩ := processItem_inv hx hn hs he
      exact passLoop_inv fuel i (j + 1) _ hn' hs' he'

theorem runFrom_inv {g : Grammar} {toks : List Token} {ex : Nat} :
    ∀ (c i : Nat) (chart : Chart),
      NodupChart chart → EmptyFrom chart (i + 1) →
      NodupChart (runFrom g toks ex c i chart)
  | 0, _, _, hn, _ => hn
  | c + 1, i, chart, hn, he => by
    rw [runFrom]
    have hs0 : ScanImage chart i 0 := by
      intro y hy
      rw [he (i + 1) (Nat.le_refl _)] at hy
      exact absurd hy (List.not_mem_nil y)
    have he2 : EmptyFrom chart (i + 2) := fun k hk => he k (by omega)
    obtain ⟨hn', he'⟩ := passLoop_inv _ i 0 chart hn hs0 he2
    exact runFrom_inv c (i + 1) _ hn' he'

theorem recognizeC_nodup {g : Grammar} {toks : List Token} {s : String} (ex : Nat)
    (hnd : (lookupG g s).Nodup) : NodupChart (recognizeC g toks ex s) := by
  unfold recognizeC
  apply runFrom_inv (toks.length + 1) 0
  · intro k
    cases k with
    | zero =>
      rw [chartGet_initChart_zero, List.map_map]
      exact List.Nodup.map (fun a b hab => by
        simpa using congrArg (fun q : Rule × Nat × Nat => q.1.2) hab) hnd
    | succ k =>
      rw [chartGet_initChart_succ]
      exact List.nodup_nil
  · intro k hk
    cases k with
    | zero => omega
    | succ k => exact chartGet_initChart_succ g s toks.length k

theorem lookupG_no_empty {g : Grammar}
    (hg : ∀ p ∈ g, ∀ rhs ∈ p.2, rhs ≠ ([] : List String)) :
    ∀ a rhs, rhs ∈ lookupG g a → rhs ≠ ([] : List String) := by
  intro a rhs hr
  unfold lookupG at hr
  cases hf : g.find? (fun p => p.1 == a) with
  | none => rw [hf] at hr; exact absurd hr (List.not_mem_nil _)
  | some p =>
    rw [hf] at hr
    exact hg p (List.mem_of_find?_eq_some hf) rhs hr

theorem parseTokens_nil_reject {g : Grammar}
    (hg : ∀ p ∈ g, ∀ rhs ∈ p.2, rhs ≠ ([] : List String)) :
    parseTokens g [] = (false, none) := by
  cases hs : startSym g with
  | none =>
    unfold parseTokens
    rw [hs]
  | some s =>
    by_cases hse : s = ""
    · subst hse
      have : parseTokens g [] = (false, none) := by
        unfold parseTokens
        rw [hs]
        rfl
      exact this
    have hlk := lookupG_no_empty hg
    have H : StepInv g [] (fun x _ => x.dot = 0 ∧ ruleInG g x.rule) := by
      constructor
      · intro b rhs i hb _ _
        exact ⟨rfl, hb⟩
      · intro x t i _ _ _ _ hti
        simp at hti
      · intro x y i hPx hxc _ _ _
        exfalso
        have hdot : x.dot = 0 := hPx.1
        have hlen : x.rule.2.length ≤ x.dot := isComplete_iff.mp hxc
        have hnil : x.rule.2 = [] := List.length_eq_zero.mp (by omega)
        exact hlk x.rule.1 x.rule.2 hPx.2 hnil
    have hwf : ChartWf (fun x _ => x.dot = 0 ∧ ruleInG g x.rule) (recognizeC g [] 0 s) :=
      recognize_wf H (fun rhs hr => ⟨rfl, hr⟩)
    have hany : (chartGet (recognizeC g [] 0 s) 0).any (isAccepting s) = false := by
      by_contra hc
      rw [Bool.not_eq_false, List.any_eq_true] at hc
      obtain ⟨x, hx, hacc⟩ := hc
      obtain ⟨hdot, hrule⟩ := hwf 0 x hx
      obtain ⟨_, hcomp, _⟩ := isAccepting_props hacc
      have hlen := isComplete_iff.mp hcomp
      have hnil : x.rule.2 = [] := List.length_eq_zero.mp (by omega)
      exact hlk x.rule.1 x.rule.2 hrule hnil
    obtain ⟨h1, h2⟩ := parseTokens_eq_cases ([] : List Token) hs hse
    rw [Prod.ext_iff]
    constructor
    · rw [h1]
      exact hany
    · rw [h2]
      simp only [List.length_nil] at hany ⊢
      rw [hany]
      rfl

theorem completeInsert_of_mem {chart : Chart} {i : Nat} {y x : Item}
    (h : idOf (advSub y x) ∈ (chartGet chart i).map idOf) :
    completeInsert chart i y x = chart := by
  unfold completeInsert
  rw [addIfNew_of_mem h, chartSet_chartGet]

theorem buildTree_first {s : String} {c : Chart} {n : Nat} {x : Item}
    (h : (chartGet c n).find? (isAccepting s) = some x) :
    buildTree s c n = some (treeOfItem x) := by
  unfold buildTree
  rw [h, Option.map_some']

/-- C1 as stated is false on the code: the initial seeding of chart[0]
(EarleyParser.parse, `chart[0].append(item)`) performs no membership check,
so a grammar whose start symbol has duplicate productions puts two
identity-equal items into C[0], and the unchecked scan append then copies
them into C[1]: after recognizing the single token `id` with the grammar
S → id | id (the same production twice), C[1] holds two identity-equal
entries. -/
theorem claim_C1_counterexample :
    ¬ ((chartGet (recognizeC [("S", [["id"], ["id"]])] [⟨"id", "x"⟩] 0 "S") 1).map
        idOf).Nodup := by
  decide

/-- C1 (amended): if the start symbol's production list contains no duplicate
right-hand sides, then no chart position ever holds two identity-equal
entries (same production, same dot, same origin) — stated on the final
chart of recognition; every intermediate C[k] is a prefix of the final C[k]
(chart lists only grow), so the final-state statement bounds every point
during recognition, including the items the scan step appends to C[i+1]
without a membership check. -/
theorem claim_C1_nodup (g : Grammar) (toks : List Token) (s : String)
    (hnd : (lookupG g s).Nodup) (k : Nat) :
    ((chartGet (recognizeC g toks 0 s) k).map idOf).Nodup :=
  recognizeC_nodup 0 hnd k

theorem claim_C1_nodup_witness :
    (lookupG [("S", [["id"]])] "S").Nodup ∧
      ((chartGet (recognizeC [("S", [["id"]])] [⟨"id", "x"⟩] 0 "S") 1).map idOf).Nodup :=
  ⟨by decide, claim_C1_nodup [("S", [["id"]])] [⟨"id", "x"⟩] "S" (by decide) 1⟩

/-- C2: when a start symbol exists and is not falsy (the empty string, which
only a pathological production line with an empty left-hand side produces),
parse accepts (returns True in the first component) iff after the main loop the item-set C[n] contains an accepting
item (lhs = start symbol, complete, origin 0); on acceptance the second
component is a tree (some), otherwise it is None. -/
theorem claim_C2_accept_iff (g : Grammar) (toks : List Token) (s : String)
    (hs : startSym g = some s) (hse : s ≠ "") :
    ((parseTokens g toks).1 = true ↔
      ∃ x, x ∈ chartGet (recognizeC g toks 0 s) toks.length ∧ isAccepting s x = true) ∧
    ((parseTokens g toks).1 = true → ∃ t, (parseTokens g toks).2 = some t) ∧
    ((parseTokens g toks).1 = false → (parseTokens g toks).2 = none) := by
  obtain ⟨h1, h2⟩ := parseTokens_eq_cases toks hs hse
  refine ⟨?_, ?_, ?_⟩
  · rw [h1]
    exact List.any_eq_true
  · intro ht
    rw [h1] at ht
    rw [h2, if_pos ht]
    have hex : ∃ x, x ∈ chartGet (recognizeC g toks 0 s) toks.length ∧
        isAccepting s x = true := List.any_eq_true.mp ht
    have hfs : ((chartGet (recognizeC g toks 0 s) toks.length).find? (isAccepting s)).isSome :=
      List.find?_isSome.mpr hex
    obtain ⟨x, hx⟩ := Option.isSome_iff_exists.mp hfs
    exact ⟨treeOfItem x, by unfold buildTree; rw [hx, Option.map_some']⟩
  · intro hf
    rw [h1] at hf
    rw [h2, hf]
    rfl

theorem claim_C2_accept_iff_witness :
    startSym [("S", [["id"]])] = some "S" ∧ "S" ≠ "" ∧
      (((parseTokens [("S", [["id"]])] [⟨"id", "x"⟩]).1 = true ↔
        ∃ x, x ∈ chartGet (recognizeC [("S", [["id"]])] [⟨"id", "x"⟩] 0 "S")
            ([(⟨"id", "x"⟩ : Token)]).length ∧ isAccepting "S" x = true) ∧
      ((parseTokens [("S", [["id"]])] [⟨"id", "x"⟩]).1 = true →
        ∃ t, (parseTokens [("S", [["id"]])] [⟨"id", "x"⟩]).2 = some t) ∧
      ((parseTokens [("S", [["id"]])] [⟨"id", "x"⟩]).1 = false →
        (parseTokens [("S", [["id"]])] [⟨"id", "x"⟩]).2 = none)) :=
  ⟨rfl, by decide, claim_C2_accept_iff [("S", [["id"]])] [⟨"id", "x"⟩] "S" rfl (by decide)⟩

/-- C3: for every accepted token sequence, the yield of the returned tree —
the pre-order sequence of the lexemes of its terminal leaves — equals the
sequence of input lexemes in order, with exactly one leaf per token. -/
theorem claim_C3_yield (g : Grammar) (toks : List Token) (t : PTree)
    (h : parseTokens g toks = (true, some t)) :
    treeYield t = toks.map Token.lexeme ∧ (treeYield t).length = toks.length := by
  have hy := accepted_yield h
  exact ⟨hy, by rw [hy, List.length_map]⟩

theorem claim_C3_yield_witness :
    parseTokens [("S", [["id"]])] [⟨"id", "x"⟩]
        = (true, some (PTree.node "S" false [PTree.node "x" true []])) ∧
      treeYield (PTree.node "S" false [PTree.node "x" true []])
        = [(⟨"id", "x"⟩ : Token)].map Token.lexeme :=
  ⟨rfl, (claim_C3_yield [("S", [["id"]])] [⟨"id", "x"⟩]
    (PTree.node "S" false [PTree.node "x" true []]) rfl).1⟩

/-- C4 as stated is false on the code: load_grammar performs no validation
and no BadGrammar error exists — a production line with an empty right-hand
side ("A →") is accepted into the grammar, a usable Grammar value is
produced, and a parse runs with it (here even accepting the empty input). -/
theorem claim_C4_counterexample :
    loadGrammar (some ["A →"]) = [("A", [[]])] ∧
      (parseTokens (loadGrammar (some ["A →"])) []).1 = true :=
  ⟨by decide, rfl⟩

/-- C4 (amended): grammar construction never fails: the only load error is a
missing grammar file, which yields the empty grammar mapping, on which
parse declines (returns (False, None)); no validation of empty right-hand
sides (or of the start symbol) is performed — an empty-rhs production is
accepted into the grammar and parsing proceeds with it. -/
theorem claim_C4_load (input : String) :
    loadGrammar none = [] ∧ startSym (loadGrammar none) = none ∧
      parse (loadGrammar none) input = (false, none) ∧
      loadGrammar (some ["A →"]) = [("A", [[]])] :=
  ⟨rfl, rfl, rfl, by decide⟩

/-- C5: recognition terminates for every grammar (left recursion included)
and token sequence: every fuelled loop of the embedding reaches its exit
condition within the allotted fuel — the per-position pass reaches a fixed
point because distinct items are finitely many and checked insertion is
idempotent — so granting every loop arbitrary extra fuel changes nothing. -/
theorem claim_C5_terminates (g : Grammar) (toks : List Token) (ex : Nat) (s : String) :
    recognizeC g toks ex s = recognizeC g toks 0 s :=
  recognizeC_drop_extra g toks ex s

/-- C6: recognition and tree construction are deterministic: parse is a pure
function of the grammar and the input string, so two runs on the same
inputs return the same verdict and the same tree. -/
theorem claim_C6_deterministic (g : Grammar) (input : String) (r1 r2 : Bool × Option PTree)
    (h1 : parse g input = r1) (h2 : parse g input = r2) : r1 = r2 := by
  rw [← h1, ← h2]

theorem claim_C6_deterministic_witness :
    ((true, some (PTree.node "S" false [PTree.node "x" true []])) : Bool × Option PTree)
      = (true, some (PTree.node "S" false [PTree.node "x" true []])) :=
  claim_C6_deterministic [("S", [["id"]])] "x" _ _ rfl rfl

/-- C7: when EarleyParser.complete produces an item that is identity-equal
to one already in chart[i], the insertion is discarded whole — the chart is
unchanged, the earlier back-pointer list is retained and the alternative is
not merged; and build_tree roots the tree at the first accepting item of
C[n] in insertion order (List.find?), returning exactly that one tree. -/
theorem claim_C7_first_backpointer :
    (∀ (chart : Chart) (i : Nat) (y x : Item),
        idOf (advSub y x) ∈ (chartGet chart i).map idOf →
        completeInsert chart i y x = chart) ∧
    (∀ (s : String) (c : Chart) (n : Nat) (x : Item),
        (chartGet c n).find? (isAccepting s) = some x →
        buildTree s c n = some (treeOfItem x)) :=
  ⟨fun _ _ _ _ h => completeInsert_of_mem h, fun _ _ _ _ h => buildTree_first h⟩

theorem claim_C7_first_backpointer_witness :
    completeInsert [[Item.mk ("A", ["B"]) 1 0 .nil]] 0 (Item.mk ("A", ["B"]) 0 0 .nil)
        (Item.mk ("B", ["id"]) 1 0 (.consTok ⟨"id", "w"⟩ .nil))
      = [[Item.mk ("A", ["B"]) 1 0 .nil]] ∧
    buildTree "S" [[Item.mk ("S", ["id"]) 1 0 (.consTok ⟨"id", "w"⟩ .nil)]] 0
      = some (treeOfItem (Item.mk ("S", ["id"]) 1 0 (.consTok ⟨"id", "w"⟩ .nil))) :=
  ⟨claim_C7_first_backpointer.1 [[Item.mk ("A", ["B"]) 1 0 .nil]] 0
      (Item.mk ("A", ["B"]) 0 0 .nil)
      (Item.mk ("B", ["id"]) 1 0 (.consTok ⟨"id", "w"⟩ .nil)) (by decide),
    claim_C7_first_backpointer.2 "S" [[Item.mk ("S", ["id"]) 1 0 (.consTok ⟨"id", "w"⟩ .nil)]]
      0 (Item.mk ("S", ["id"]) 1 0 (.consTok ⟨"id", "w"⟩ .nil)) rfl⟩

/-- C8: for every grammar whose productions all have a right-hand side of
length at least one (no epsilon productions), an input that tokenizes to
the empty token sequence is rejected: parse returns (False, None). -/
theorem claim_C8_empty_input (g : Grammar) (input : String)
    (hg : ∀ p ∈ g, ∀ rhs ∈ p.2, rhs ≠ ([] : List String))
    (htok : tokenize input = []) :
    parse g input = (false, none) := by
  unfold parse
  rw [htok]
  exact parseTokens_nil_reject hg

theorem claim_C8_empty_input_witness :
    (∀ p ∈ [("S", [["id"]])], ∀ rhs ∈ p.2, rhs ≠ ([] : List String)) ∧
      tokenize "" = [] ∧ parse [("S", [["id"]])] "" = (false, none) :=
  ⟨by decide, rfl, claim_C8_empty_input [("S", [["id"]])] "" (by decide) rfl⟩

/-- C9: every item in any chart position of recognition has a back-pointer
list whose length equals its dot, and entry-wise each back-pointer matches
the corresponding matched symbol of the production: a token of that kind
for a scanned terminal, a completed item with that left-hand side for a
matched non-terminal — the chart lists only grow, so the final chart
covers every reachable state and the mismatched-length failure condition
never occurs. -/
theorem claim_C9_backpointers (g : Grammar) (toks : List Token) (s : String) (k : Nat)
    (x : Item) (hx : x ∈ chartGet (recognizeC g toks 0 s) k) :
    x.children.toList.length = x.dot ∧
      List.Forall₂ (childMatches g) (x.rule.2.take x.dot) x.children.toList := by
  obtain ⟨h1, h2, h3, h4, h5, h6⟩ := recognize_wfItem g toks 0 s k x hx
  refine ⟨?_, h5⟩
  have hlen := h5.length_eq
  rw [List.length_take, Nat.min_eq_left h2] at hlen
  omega

theorem claim_C9_backpointers_witness :
    Item.mk ("S", ["id"]) 1 0 (.consTok ⟨"id", "x"⟩ .nil)
        ∈ chartGet (recognizeC [("S", [["id"]])] [⟨"id", "x"⟩] 0 "S") 1 ∧
      ((Item.mk ("S", ["id"]) 1 0 (.consTok (⟨"id", "x"⟩ : Token) .nil)).children.toList.length
          = (Item.mk ("S", ["id"]) 1 0 (.consTok (⟨"id", "x"⟩ : Token) .nil)).dot ∧
        List.Forall₂ (childMatches [("S", [["id"]])])
          ((Item.mk ("S", ["id"]) 1 0 (.consTok (⟨"id", "x"⟩ : Token) .nil)).rule.2.take
            (Item.mk ("S", ["id"]) 1 0 (.consTok (⟨"id", "x"⟩ : Token) .nil)).dot)
          (Item.mk ("S", ["id"]) 1 0 (.consTok (⟨"id", "x"⟩ : Token) .nil)).children.toList) :=
  have hmem : Item.mk ("S", ["id"]) 1 0 (.consTok ⟨"id", "x"⟩ .nil)
      ∈ chartGet (recognizeC [("S", [["id"]])] [⟨"id", "x"⟩] 0 "S") 1 :=
    List.mem_singleton_self _
  ⟨hmem, claim_C9_backpointers [("S", [["id"]])] [⟨"id", "x"⟩] "S" 1 _ hmem⟩

/-- C10: when the grammar mapping is empty (as after a missing grammar
file), no start symbol is defined and parse returns (False, None) normally
for every input string. -/
theorem claim_C10_empty_grammar (input : String) :
    startSym ([] : Grammar) = none ∧ parse [] input = (false, none) :=
  ⟨rfl, rfl⟩

theorem passLoop_grows (g : Grammar) (toks : List Token) (ex : Nat) :
    ∀ (fuel i j : Nat) (chart : Chart) (m : Nat),
      growsTo (chartGet chart m) (chartGet (passLoop g toks ex fuel i j chart) m)
  | 0, _, _, _, _ => growsTo_refl _
  | fuel + 1, i, j, chart, m => by
    cases hx : (chartGet chart i).get? j with
    | none => rw [passLoop, hx]; exact growsTo_refl _
    | some x =>
      have hred : passLoop g toks ex (fuel + 1) i j chart
          = passLoop g toks ex fuel i (j + 1) (processItem g toks ex chart i x) := by
        rw [passLoop, hx]
      rw [hred]
      exact growsTo_trans (processItem_grows g toks ex chart i x m)
        (passLoop_grows g toks ex fuel i (j + 1) _ m)

theorem runFrom_grows (g : Grammar) (toks : List Token) (ex : Nat) :
    ∀ (c i : Nat) (chart : Chart) (m : Nat),
      growsTo (chartGet chart m) (chartGet (runFrom g toks ex c i chart) m)
  | 0, _, _, _ => growsTo_refl _
  | c + 1, i, chart, m => by
    rw [runFrom]
    exact growsTo_trans (passLoop_grows g toks ex _ i 0 chart m)
      (runFrom_grows g toks ex c (i + 1) _ m)

theorem nodup_of_growsTo {l l' : List Item} (h : growsTo l l')
    (hn : (l'.map idOf).Nodup) : (l.map idOf).Nodup := by
  obtain ⟨u, rfl⟩ := h
  rw [List.map_append] at hn
  exact List.Nodup.of_append_left hn

set_option maxHeartbeats 1000000 in
theorem tokenizeChars_drop_extra : ∀ (fuel : Nat) (l : List Char) (e : Nat),
    l.length < fuel → tokenizeChars (e + fuel) l = tokenizeChars fuel l
  | 0, _, _, h => absurd h (by omega)
  | fuel + 1, [], e, _ => by
    have hEf : e + (fuel + 1) = (e + fuel) + 1 := rfl
    rw [hEf]
    rfl
  | fuel + 1, c :: rest, e, h => by
    have hEf : e + (fuel + 1) = (e + fuel) + 1 := rfl
    have hr : rest.length < fuel := by
      simp only [List.length_cons] at h
      omega
    have hd1 : (rest.dropWhile Char.isDigit).length < fuel :=
      Nat.lt_of_le_of_lt (List.dropWhile_sublist _).length_le hr
    have hd2 : (rest.dropWhile (fun ch => ch.isAlphanum || ch == '_')).length < fuel :=
      Nat.lt_of_le_of_lt (List.dropWhile_sublist _).length_le hr
    rw [hEf, tokenizeChars, tokenizeChars]
    split_ifs <;>
      simp only [tokenizeChars_drop_extra fuel rest e hr,
        tokenizeChars_drop_extra fuel (rest.dropWhile Char.isDigit) e hd1,
        tokenizeChars_drop_extra fuel
          (rest.dropWhile (fun ch => ch.isAlphanum || ch == '_')) e hd2]
